import Mathlib

/-!
Verification of the `pyslackrandomcoffee` pairing bot.

The development shallowly embeds the program's core functions:

* the pair generator `generate_pairs` (with its inner helper
  `pair_excluding_historic_matches` and the in-place consumption loop),
* the message formatter `format_message_from_list_of_pairs`, and
* the pure parsing core of the history extractor `get_previous_pairs`.

Python's shared random generator is modelled by an explicit oracle state
`RandState` (a stream of natural numbers) that is threaded through the
computation; `random.shuffle` is modelled by the Fisher-Yates algorithm it
implements, driven by the oracle, and `random.sample(l, 1)[0]` by an
oracle-chosen index into `l` (raising `ValueError` on an empty population,
modelled as `none`).  Python's in-place mutation of the `members` list is
modelled by threading the list state explicitly and returning its final
value.  Python exceptions escaping a function are modelled by an `Option`
result (`none` = raised).  Message text is modelled as `List Char`, and
`str.split`, `str.strip` and the `in` substring test are implemented
character by character with Python's semantics.
-/

set_option linter.unusedSectionVars false
set_option maxRecDepth 100000
set_option maxHeartbeats 1000000
set_option synthInstance.maxSize 2000
set_option synthInstance.maxHeartbeats 1000000

open List

namespace RC

/-- Oracle state modelling Python's global random generator: a stream of
natural numbers together with a cursor.  Each primitive random draw reads
one number and advances the cursor. -/
structure RandState where
  g : Nat → Nat
  i : Nat

/-- Read one number from the oracle. -/
def draw (s : RandState) : Nat × RandState :=
  (s.g s.i, ⟨s.g, s.i + 1⟩)

variable {α : Type} [DecidableEq α]

/-- Model of `random.sample(l, 1)[0]`: uniformly chosen element of `l`,
here the element at an oracle-chosen index.  `random.sample` raises
`ValueError` exactly when the population is smaller than the sample size,
i.e. when `l` is empty; that is the `none` result. -/
def randSample (l : List α) (s : RandState) : Option (α × RandState) :=
  match l with
  | [] => none
  | a :: as =>
    let p := draw s
    some ((a :: as).get ⟨p.1 % (as.length + 1), Nat.mod_lt _ (Nat.succ_pos _)⟩, p.2)

/-- Swap the elements of `a` at positions `i` and `j` (Python's
`x[i], x[j] = x[j], x[i]`); out-of-range positions leave the list
unchanged (they never occur in the shuffle below). -/
def swapList (a : List α) (i j : Nat) : List α :=
  match a[i]?, a[j]? with
  | some x, some y => (a.set i y).set j x
  | _, _ => a

/-- The loop of CPython's `random.shuffle` (Fisher-Yates):
`for i in reversed(range(1, len(x))): j = randbelow(i+1); swap x[i] x[j]`.
The first argument is the current index `i`; `randbelow(n)` is modelled as
an oracle draw reduced mod `n`. -/
def shuffleAux : Nat → List α → RandState → List α × RandState
  | 0, a, s => (a, s)
  | i + 1, a, s =>
    let p := draw s
    let j := p.1 % (i + 2)
    shuffleAux i (swapList a (i + 1) j) p.2

/-- Model of `random.shuffle(x)`: run the Fisher-Yates loop from index
`len(x) - 1` down to `1`. -/
def listShuffle (a : List α) (s : RandState) : List α × RandState :=
  shuffleAux (a.length - 1) a s

/-- The per-member historical-match set: the body of the dictionary built
at the top of `generate_pairs`, which collects, over all batches of
`previous_pairs`, the partner of `member` in every pair containing it, and
deduplicates (`list(set(matches))`). -/
def memberMatches (previous_pairs : List (List (α × α))) (member : α) : List α :=
  ((previous_pairs.map (fun pair_set => pair_set.filterMap (fun p =>
      if p.1 = member then some p.2
      else if p.2 = member then some p.1 else none))).flatten).dedup

/-- The `members_previous_matches` dictionary of `generate_pairs`.  It is
built only when both `members` and `previous_pairs` are truthy, and its
keys are exactly the members, so it is non-empty (truthy) in exactly those
cases; `none` models the empty dictionary.  Lookups only ever happen at
keys (members), so the dictionary is modelled by its lookup function. -/
def buildMPM (members : List α) (previous_pairs : Option (List (List (α × α)))) :
    Option (α → List α) :=
  match previous_pairs with
  | none => none
  | some pp => if members.isEmpty || pp.isEmpty then none else some (memberMatches pp)

/-- `pair_excluding_historic_matches(member1, members, members_previous_matches)`:
if the dictionary is truthy, sample from the candidates that are not
historical matches of `member1`; on the `ValueError` of an empty candidate
pool fall back to sampling from all of `members`.  The chosen `member2` is
removed from `members` (`list.remove`, first occurrence) and the pair
`(member1, member2)` is returned together with the updated list. -/
def pair_excluding_historic_matches (member1 : α) (members : List α)
    (mpm : Option (α → List α)) (s : RandState) :
    Option ((α × α) × List α × RandState) :=
  match mpm with
  | some f =>
    let member2_candidates := members.filter (fun m => !((f member1).contains m))
    match randSample member2_candidates s with
    | some (member2, s') => some ((member1, member2), members.erase member2, s')
    | none =>
      match randSample members s with
      | some (member2, s') => some ((member1, member2), members.erase member2, s')
      | none => none
  | none =>
    match randSample members s with
    | some (member2, s') => some ((member1, member2), members.erase member2, s')
    | none => none

/-- The `while len(members):` loop of `generate_pairs`.  While at least two
members remain, the last member is popped as `member1` and paired; when a
single member remains it is paired with the floating member `fm`
(`first_member = members[-1]`, fixed before the loop).  The loop removes at
least one member per iteration, so a fuel of `members.length` suffices;
`none` models an escaped exception (it never occurs, see `pairLoop_spec`). -/
def pairLoop (mpm : Option (α → List α)) (fm : α) :
    Nat → List α → RandState → Option (List (α × α) × List α × RandState)
  | 0, members, s => if members.isEmpty then some ([], members, s) else none
  | _ + 1, [], s => some ([], [], s)
  | fuel + 1, m0 :: ms, s =>
    let step :=
      if 2 ≤ (m0 :: ms).length then
        pair_excluding_historic_matches ((m0 :: ms).getLast (List.cons_ne_nil m0 ms))
          (m0 :: ms).dropLast mpm s
      else
        pair_excluding_historic_matches fm (m0 :: ms) mpm s
    match step with
    | none => none
    | some (pair, members2, s2) =>
      match pairLoop mpm fm fuel members2 s2 with
      | none => none
      | some (pairs, mfin, sfin) => some (pair :: pairs, mfin, sfin)

/-- `generate_pairs(members, previous_pairs)`: shuffle the members in
place, build the historical-match dictionary, and run the pairing loop.
The result carries the produced pairs, the final state of the caller's
(mutated) `members` list, and the final random state. -/
def generate_pairs (members : List α) (previous_pairs : Option (List (List (α × α))))
    (s : RandState) : Option (List (α × α) × List α × RandState) :=
  let sh := listShuffle members s
  match sh.1 with
  | [] => some ([], [], sh.2)
  | m0 :: ms =>
    pairLoop (buildMPM (m0 :: ms) previous_pairs)
      ((m0 :: ms).getLast (List.cons_ne_nil m0 ms)) (m0 :: ms).length (m0 :: ms) sh.2

/-- All member identifiers appearing in a batch of pairs, in order. -/
def pairMembers (pairs : List (α × α)) : List α :=
  pairs.foldr (fun p acc => p.1 :: p.2 :: acc) []

/-- Models the call boundary of `pyslackrandomcoffee` after
`get_members_list` has run: on a `SlackApiError` that function catches the
exception, logs, and returns `None`, and `generate_pairs(None,
previous_pairs)` is then invoked.  In Python `random.shuffle(None)` raises
`TypeError` (`len()` of `None`), modelled by the `none` result; a list
argument behaves as `generate_pairs`. -/
def generate_pairs_of_members_result (members? : Option (List α))
    (pp : Option (List (List (α × α)))) (s : RandState) :
    Option (List (α × α) × List α × RandState) :=
  match members? with
  | none => none
  | some ms => generate_pairs ms pp s

/-! ### Text layer

Message text is `List Char`.  `str.split(sep)` (non-empty separator),
`str.strip()`, and the substring test `in` are implemented with Python's
semantics: split on each leftmost non-overlapping occurrence of the
separator, strip whitespace from both ends. -/

/-- Message text: a Python string as a list of characters. -/
abbrev Str := List Char

/-- Find the first occurrence of the separator `c0 :: sr` in `s`,
returning the text before and after it. -/
def findSplit (c0 : Char) (sr : Str) : Str → Option (Str × Str)
  | [] => none
  | c :: rest =>
    if (c0 :: sr).isPrefixOf (c :: rest) then some ([], rest.drop sr.length)
    else
      match findSplit c0 sr rest with
      | some (pre, post) => some (c :: pre, post)
      | none => none

/-- Fuelled worker for `splitSeq`; the fuel bounds the number of splits,
and `s.length` fuel always suffices. -/
def splitSeqF (c0 : Char) (sr : Str) : Nat → Str → List Str
  | 0, s => [s]
  | fuel + 1, s =>
    match findSplit c0 sr s with
    | none => [s]
    | some (pre, post) => pre :: splitSeqF c0 sr fuel post

/-- Python's `s.split(sep)` for the non-empty separator `c0 :: sr`: split
`s` at each leftmost non-overlapping occurrence of the separator. -/
def splitSeq (c0 : Char) (sr : Str) (s : Str) : List Str :=
  splitSeqF c0 sr s.length s

/-- Python's substring test `(c0 :: sr) in s`. -/
def hasSeq (c0 : Char) (sr : Str) (s : Str) : Bool :=
  (findSplit c0 sr s).isSome

/-- Python's substring test `pat in s` for an arbitrary pattern. -/
def hasSub (pat : Str) (s : Str) : Bool :=
  match pat with
  | [] => true
  | c :: cs => hasSeq c cs s

/-- Python's default `str.strip()` whitespace class: exactly the
characters for which `str.isspace()` holds — the ASCII whitespace
`U+0009`-`U+000D`, `U+001C`-`U+001F` and `U+0020`, plus `U+0085`,
`U+00A0`, `U+1680`, the Unicode spaces `U+2000`-`U+200A`, `U+2028`,
`U+2029`, `U+202F`, `U+205F` and `U+3000`. -/
def isWS (c : Char) : Bool :=
  c == ' ' || c == '\t' || c == '\n' || c == '\r' || c == '\x0b' || c == '\x0c'
    || c == '\x1c' || c == '\x1d' || c == '\x1e' || c == '\x1f'
    || c == '\x85' || c == '\xa0' || c == '\u1680'
    || ('\u2000' ≤ c && c ≤ '\u200a')
    || c == '\u2028' || c == '\u2029' || c == '\u202f' || c == '\u205f' || c == '\u3000'

/-- Python's `s.strip()`: drop whitespace from both ends. -/
def pyStrip (s : Str) : Str :=
  ((s.dropWhile isWS).reverse.dropWhile isWS).reverse

/-- Decimal digit characters. -/
def digitCh (d : Nat) : Char :=
  ['0', '1', '2', '3', '4', '5', '6', '7', '8', '9'].getD d '0'

/-- Fuelled decimal rendering worker (standard divide-by-ten algorithm). -/
def natCharsAux : Nat → Nat → Str → Str
  | 0, _, acc => acc
  | fuel + 1, n, acc =>
    if n / 10 = 0 then digitCh (n % 10) :: acc
    else natCharsAux fuel (n / 10) (digitCh (n % 10) :: acc)

/-- Python's `str(n)` for a natural number: decimal rendering. -/
def natChars (n : Nat) : Str :=
  natCharsAux (n + 1) n []

/-- The module constant `MAGICAL_TEXT`. -/
def MAGICAL_TEXT : Str := ("This weeks random coffees are").toList

/-- The module constant `LOOKBACK_DAYS`. -/
def LOOKBACK_DAYS : Nat := 28

/-- The fixed trailing explanatory line `m2` of the formatted message
(an f-string interpolating `LOOKBACK_DAYS`). -/
def FOOTER : Str :=
  ("An uneven number of members results in one person getting two coffee matches. Matches from the last ").toList
    ++ natChars LOOKBACK_DAYS
    ++ (" days considered to avoid matching the same members several times in the time period.").toList

/-- The body of one formatted pair line, `f' {i+1}. {p1} and {p2}'`
(without the trailing newline). -/
def pairBody (i : Nat) (p : Str × Str) : Str :=
  [' '] ++ natChars (i + 1) ++ ['.', ' '] ++ p.1 ++ (" and ").toList ++ p.2

/-- One formatted pair line, `f' {i+1}. {p1} and {p2}\n'`. -/
def pairLine (i : Nat) (p : Str × Str) : Str :=
  pairBody i p ++ ['\n']

/-- `format_message_from_list_of_pairs(pairs)`: `None` for an empty batch,
otherwise header (`MAGICAL_TEXT + ':\n'`), one numbered line per pair, and
the fixed footer. -/
def format_message_from_list_of_pairs (pairs : List (Str × Str)) : Option Str :=
  if pairs.length ≠ 0 then
    some ((MAGICAL_TEXT ++ [':', '\n'])
      ++ (pairs.enum.map (fun ip => pairLine ip.1 ip.2)).flatten ++ FOOTER)
  else none

/-- The message filter of `get_previous_pairs`: the text must contain
`MAGICAL_TEXT` and `'@'` (testing mode) or `'<@U'` (production mode). -/
def messageFilter (testing : Bool) (t : Str) : Bool :=
  hasSub MAGICAL_TEXT t && (if testing then hasSub ['@'] t else hasSub (("<@U").toList) t)

/-- Evaluate a fallible function over a list, propagating the first
failure (a Python comprehension whose element expression may raise). -/
def traverseOpt {β γ : Type} (f : β → Option γ) : List β → Option (List γ)
  | [] => some []
  | x :: xs =>
    match f x, traverseOpt f xs with
    | some y, some ys => some (y :: ys)
    | _, _ => none

/-- The per-line parse of `get_previous_pairs`:
`(e.split('. ')[1].split('and')[0].strip(), e.split('. ')[1].split('and')[1].strip())`.
A missing index (Python `IndexError`) is the `none` result. -/
def parseLine (e : Str) : Option (Str × Str) :=
  match (splitSeq '.' [' '] e)[1]? with
  | none => none
  | some seg =>
    match (splitSeq 'a' ['n', 'd'] seg)[0]?, (splitSeq 'a' ['n', 'd'] seg)[1]? with
    | some a, some b => some (pyStrip a, pyStrip b)
    | _, _ => none

/-- Parse one matched message: split into lines, drop the first and last
line (`t.split('\n')[1:-1]`), and parse each remaining line; a failing
line raises (`none`). -/
def parseMessage (t : Str) : Option (List (Str × Str)) :=
  traverseOpt parseLine (((splitSeq '\n' [] t).drop 1).dropLast)

/-- The pure parsing core of `get_previous_pairs`, applied to the window
of message texts fetched from the channel: keep the texts passing the
filter; if any remain, parse each into a batch (a raised parse error is
the outer `none`); otherwise return Python `None` (the inner `none`). -/
def get_previous_pairs (texts : List Str) (testing : Bool) :
    Option (Option (List (List (Str × Str)))) :=
  let matched := texts.filter (messageFilter testing)
  if matched.length ≠ 0 then (traverseOpt parseMessage matched).map some
  else some none

/-- The spec's line pattern `<index>. <member1> and <member2>`: optional
leading spaces, a non-empty decimal index, the separator `'. '`, and an
`'and'` in the remainder. -/
def linePat (e : Str) : Bool :=
  let e1 := e.dropWhile (· == ' ')
  let ds := e1.takeWhile (fun c => ('0' ≤ c) && (c ≤ '9'))
  let rest := e1.dropWhile (fun c => ('0' ≤ c) && (c ≤ '9'))
  !ds.isEmpty && ['.', ' '].isPrefixOf rest && hasSeq 'a' ['n', 'd'] (rest.drop 2)

/-- A character safe for the textual round-trip: not `str.strip`
whitespace (which includes `'\n'`) and not `'.'`. -/
def goodChar (c : Char) : Bool :=
  !(isWS c) && (c != '.')

/-- A member identifier string that survives the format/parse round-trip:
non-empty, made of safe characters, and not containing the substring
`'and'`. -/
def goodMember (p : Str) : Bool :=
  !p.isEmpty && p.all goodChar && !(hasSub ['a', 'n', 'd'] p)

/-- Both sides of a pair are well-formed member strings. -/
def goodPair (pr : Str × Str) : Bool :=
  goodMember pr.1 && goodMember pr.2

@[simp] theorem pairMembers_nil : pairMembers ([] : List (α × α)) = [] := rfl

@[simp] theorem pairMembers_cons (p : α × α) (t : List (α × α)) :
    pairMembers (p :: t) = p.1 :: p.2 :: pairMembers t := rfl

theorem randSample_nil (s : RandState) : randSample ([] : List α) s = none := rfl

theorem randSample_mem {l : List α} {s : RandState} {x : α} {s' : RandState}
    (h : randSample l s = some (x, s')) : x ∈ l := by
  cases l with
  | nil => simp [randSample] at h
  | cons a as =>
    simp only [randSample] at h
    obtain ⟨h1, _⟩ := Prod.mk.injEq .. ▸ (Option.some.injEq .. ▸ h)
    exact h1 ▸ (a :: as).get_mem ..

theorem randSample_ne_nil {l : List α} (h : l ≠ []) (s : RandState) :
    ∃ x s', randSample l s = some (x, s') ∧ x ∈ l := by
  obtain ⟨a, as, rfl⟩ := List.exists_cons_of_ne_nil h
  refine ⟨_, _, rfl, ?_⟩
  exact (a :: as).get_mem ..

/-- Success and shape of `pair_excluding_historic_matches` on a non-empty
pool: it returns `(member1, member2)` with `member2` drawn from `members`,
and removes `member2` from the list. -/
theorem pair_excluding_spec (member1 : α) {members : List α}
    (mpm : Option (α → List α)) (s : RandState) (h : members ≠ []) :
    ∃ m2 s', pair_excluding_historic_matches member1 members mpm s =
        some ((member1, m2), members.erase m2, s') ∧ m2 ∈ members := by
  cases mpm with
  | none =>
    obtain ⟨x, s', hx, hmem⟩ := randSample_ne_nil h s
    refine ⟨x, s', ?_, hmem⟩
    simp only [pair_excluding_historic_matches]
    rw [hx]
  | some f =>
    by_cases hc : members.filter (fun m => !((f member1).contains m)) = []
    · obtain ⟨x, s', hx, hmem⟩ := randSample_ne_nil h s
      refine ⟨x, s', ?_, hmem⟩
      simp only [pair_excluding_historic_matches]
      rw [hc, randSample_nil, hx]
    · obtain ⟨x, s', hx, hmem⟩ := randSample_ne_nil hc s
      refine ⟨x, s', ?_, (List.mem_filter.mp hmem).1⟩
      simp only [pair_excluding_historic_matches]
      rw [hx]

theorem pairLoop_nil (mpm : Option (α → List α)) (fm : α) (fuel : Nat) (s : RandState) :
    pairLoop mpm fm fuel [] s = some ([], [], s) := by
  cases fuel <;> simp [pairLoop]

/-- Main invariant of the pairing loop: with enough fuel it always
succeeds, empties the member list, produces `⌈n/2⌉` pairs whose members
are a permutation of the input (with the floating member appearing once
more when `n` is odd), pairs the popped last member first, and emits the
floating member as the first component of the final pair when `n` is
odd. -/
theorem pairLoop_spec (mpm : Option (α → List α)) (fm : α) :
    ∀ (fuel : Nat) (members : List α) (s : RandState), members.length ≤ fuel →
    ∃ pairs s',
      pairLoop mpm fm fuel members s = some (pairs, [], s') ∧
      pairs.length = (members.length + 1) / 2 ∧
      (members.length % 2 = 0 → (pairMembers pairs).Perm members) ∧
      (members.length % 2 = 1 → (pairMembers pairs).Perm (fm :: members)) ∧
      (2 ≤ members.length → pairs.head?.map Prod.fst = members.getLast?) ∧
      (members.length = 1 → ∃ x, members = [x] ∧ pairs = [(fm, x)]) ∧
      (members.length % 2 = 1 → pairs.getLast?.map Prod.fst = some fm) := by
  intro fuel
  induction fuel with
  | zero =>
    intro members s hle
    have : members = [] := List.length_eq_zero.mp (Nat.le_zero.mp hle)
    subst this
    exact ⟨[], s, by simp [pairLoop], by simp, by simp, by simp, by simp, by simp, by simp⟩
  | succ fuel ih =>
    intro members s hle
    match members with
    | [] =>
      exact ⟨[], s, by simp [pairLoop], by simp, by simp, by simp, by simp, by simp, by simp⟩
    | m0 :: ms =>
      by_cases h2 : 2 ≤ (m0 :: ms).length
      · -- pop the last member as member1
        have hne : m0 :: ms ≠ [] := List.cons_ne_nil m0 ms
        set member1 := (m0 :: ms).getLast hne with hm1
        have hsplit : (m0 :: ms).dropLast ++ [member1] = m0 :: ms :=
          List.dropLast_append_getLast hne
        have hdne : (m0 :: ms).dropLast ≠ [] := by
          intro hcon
          rw [hcon] at hsplit
          simp only [List.nil_append] at hsplit
          rw [← hsplit] at h2
          simp at h2
        obtain ⟨m2, s', hpe, hm2⟩ :=
          pair_excluding_spec member1 mpm s hdne
        have hlen' : (m0 :: ms).dropLast.length = (m0 :: ms).length - 1 := by
          simp [List.length_dropLast]
        have hlen'' : ((m0 :: ms).dropLast.erase m2).length = (m0 :: ms).length - 2 := by
          rw [List.length_erase_of_mem hm2, hlen']
          omega
        have hfuel : ((m0 :: ms).dropLast.erase m2).length ≤ fuel := by
          rw [hlen'']
          omega
        obtain ⟨pairs', s'', hrec, hplen, heven, hodd, _, _, hlast⟩ :=
          ih ((m0 :: ms).dropLast.erase m2) s' hfuel
        refine ⟨(member1, m2) :: pairs', s'', ?_, ?_, ?_, ?_, ?_, ?_, ?_⟩
        · simp only [pairLoop, h2, if_true, hpe, hrec]
        · simp only [List.length_cons, hplen, hlen'']
          have := List.length_pos.mpr hne
          omega
        · -- even case
          intro hpar
          have hpar' : ((m0 :: ms).dropLast.erase m2).length % 2 = 0 := by
            rw [hlen'']; omega
          have h1 : (pairMembers pairs').Perm ((m0 :: ms).dropLast.erase m2) := heven hpar'
          have h3 : (m2 :: (m0 :: ms).dropLast.erase m2).Perm (m0 :: ms).dropLast :=
            (List.perm_cons_erase hm2).symm
          calc pairMembers ((member1, m2) :: pairs')
              = member1 :: m2 :: pairMembers pairs' := rfl
            _ ~ member1 :: m2 :: (m0 :: ms).dropLast.erase m2 := (h1.cons _).cons _
            _ ~ member1 :: (m0 :: ms).dropLast := h3.cons _
            _ ~ (m0 :: ms).dropLast ++ [member1] :=
                (List.perm_append_singleton _ _).symm
            _ = m0 :: ms := hsplit
        · -- odd case
          intro hpar
          have hpar' : ((m0 :: ms).dropLast.erase m2).length % 2 = 1 := by
            rw [hlen'']
            have := List.length_pos.mpr hne
            omega
          have h1 : (pairMembers pairs').Perm (fm :: (m0 :: ms).dropLast.erase m2) :=
            hodd hpar'
          have h3 : (m2 :: (m0 :: ms).dropLast.erase m2).Perm (m0 :: ms).dropLast :=
            (List.perm_cons_erase hm2).symm
          calc pairMembers ((member1, m2) :: pairs')
              = member1 :: m2 :: pairMembers pairs' := rfl
            _ ~ member1 :: m2 :: fm :: (m0 :: ms).dropLast.erase m2 := (h1.cons _).cons _
            _ ~ member1 :: fm :: m2 :: (m0 :: ms).dropLast.erase m2 :=
                (List.Perm.swap _ _ _).cons _
            _ ~ fm :: member1 :: m2 :: (m0 :: ms).dropLast.erase m2 := List.Perm.swap ..
            _ ~ fm :: member1 :: (m0 :: ms).dropLast := (h3.cons _).cons _
            _ ~ fm :: ((m0 :: ms).dropLast ++ [member1]) :=
                ((List.perm_append_singleton _ _).symm).cons _
            _ = fm :: (m0 :: ms) := by rw [hsplit]
        · intro _
          have : (m0 :: ms).getLast? = some member1 := by
            rw [← hsplit, List.getLast?_concat]
          simp [this]
        · intro hcon
          omega
        · -- odd: last pair starts with the floating member
          intro hpar
          have hpar' : ((m0 :: ms).dropLast.erase m2).length % 2 = 1 := by
            rw [hlen'']
            have := List.length_pos.mpr hne
            omega
          have hplen' : pairs'.length = (((m0 :: ms).dropLast.erase m2).length + 1) / 2 :=
            hplen
          have hpne : pairs' ≠ [] := by
            intro hcon
            rw [hcon] at hplen'
            simp at hplen'
            omega
          obtain ⟨q, qs, rfl⟩ := List.exists_cons_of_ne_nil hpne
          rw [List.getLast?_cons_cons]
          exact hlast hpar'
      · -- exactly one member remains: pair it with the floating member
        have h1 : (m0 :: ms).length = 1 := by
          simp only [List.length_cons] at h2 ⊢
          omega
        have hms : ms = [] := by
          simp only [List.length_cons] at h1
          exact List.length_eq_zero.mp (Nat.succ_inj.mp h1)
        subst hms
        obtain ⟨m2, s', hpe, hm2⟩ :=
          pair_excluding_spec fm mpm s (List.cons_ne_nil m0 [])
        have hm2' : m2 = m0 := List.mem_singleton.mp hm2
        rw [hm2', List.erase_cons_head] at hpe
        refine ⟨[(fm, m0)], s', ?_, by simp, by simp, ?_, by omega, ?_, ?_⟩
        · simp only [pairLoop, h2, if_false, hpe, pairLoop_nil]
        · intro _
          exact List.Perm.refl _
        · intro _
          exact ⟨m0, rfl, rfl⟩
        · intro _
          rfl

theorem swap_set_perm_cons : ∀ (t : List α) (j : Nat) (x y : α), t[j]? = some y →
    (y :: t.set j x).Perm (x :: t) := by
  intro t
  induction t with
  | nil => intro j x y h; simp at h
  | cons z t' ih =>
    intro j x y h
    cases j with
    | zero =>
      simp only [List.getElem?_cons_zero, Option.some.injEq] at h
      subst h
      simpa [List.set] using List.Perm.swap x z t'
    | succ k =>
      simp only [List.getElem?_cons_succ] at h
      calc (y :: (z :: t').set (k + 1) x)
          = y :: z :: t'.set k x := by simp [List.set]
        _ ~ z :: y :: t'.set k x := List.Perm.swap ..
        _ ~ z :: x :: t' := (ih k x y h).cons _
        _ ~ x :: z :: t' := List.Perm.swap ..

theorem set_self : ∀ (l : List α) (i : Nat) (x : α), l[i]? = some x → l.set i x = l := by
  intro l
  induction l with
  | nil => intro i x h; simp at h
  | cons a t ih =>
    intro i x h
    cases i with
    | zero =>
      simp only [List.getElem?_cons_zero, Option.some.injEq] at h
      simp [List.set, h]
    | succ k =>
      simp only [List.getElem?_cons_succ] at h
      simp [List.set, ih k x h]

theorem swapList_perm (a : List α) (i j : Nat) : (swapList a i j).Perm a := by
  unfold swapList
  cases hx : a[i]? with
  | none =>
    cases hy : a[j]? with
    | none => exact List.Perm.refl a
    | some y => exact List.Perm.refl a
  | some x =>
    cases hy : a[j]? with
    | none => exact List.Perm.refl a
    | some y =>
      show ((a.set i y).set j x).Perm a
      by_cases hij : i = j
      · subst hij
        have hxy : y = x := by
          rw [hx] at hy
          exact (Option.some.injEq .. ▸ hy).symm
        subst hxy
        rw [List.set_set, set_self a i y hx]
      · have hbj : (a.set i y)[j]? = some y := by
          rw [List.getElem?_set_ne hij, hy]
        have h1 : (y :: (a.set i y).set j x).Perm (x :: a.set i y) :=
          swap_set_perm_cons (a.set i y) j x y hbj
        have h2 : (x :: a.set i y).Perm (y :: a) :=
          swap_set_perm_cons a i y x hx
        exact (h1.trans h2).cons_inv

theorem shuffleAux_perm : ∀ (n : Nat) (a : List α) (s : RandState),
    (shuffleAux n a s).1.Perm a := by
  intro n
  induction n with
  | zero => intro a s; exact List.Perm.refl a
  | succ n ih =>
    intro a s
    exact (ih _ _).trans (swapList_perm a (n + 1) _)

theorem listShuffle_perm (a : List α) (s : RandState) : (listShuffle a s).1.Perm a :=
  shuffleAux_perm _ a s

/-- The main specification of `generate_pairs` on a non-empty member list,
phrased in terms of the post-shuffle list and its floating member `fm`
(its last element). -/
theorem generate_pairs_main (members : List α)
    (pp : Option (List (List (α × α)))) (s : RandState) (h : members ≠ []) :
    ∃ shuffled s1 fm pairs s',
      listShuffle members s = (shuffled, s1) ∧
      shuffled.Perm members ∧
      shuffled.getLast? = some fm ∧
      generate_pairs members pp s = some (pairs, [], s') ∧
      pairs.length = (members.length + 1) / 2 ∧
      (members.length % 2 = 0 → (pairMembers pairs).Perm shuffled) ∧
      (members.length % 2 = 1 → (pairMembers pairs).Perm (fm :: shuffled)) ∧
      (2 ≤ members.length → pairs.head?.map Prod.fst = some fm) ∧
      (members.length = 1 → ∃ x, members = [x] ∧ pairs = [(x, x)]) ∧
      (members.length % 2 = 1 → pairs.getLast?.map Prod.fst = some fm) := by
  have hperm : (listShuffle members s).1.Perm members := listShuffle_perm members s
  have hlen : (listShuffle members s).1.length = members.length := hperm.length_eq
  have hne : (listShuffle members s).1 ≠ [] := by
    intro hcon
    exact h (List.length_eq_zero.mp (by rw [← hlen, hcon, List.length_nil]))
  obtain ⟨m0, ms, hsh⟩ := List.exists_cons_of_ne_nil hne
  obtain ⟨pairs, s', hloop, hplen, heven, hodd, hhead, hone, hlast⟩ :=
    pairLoop_spec (buildMPM (m0 :: ms) pp) ((m0 :: ms).getLast (List.cons_ne_nil m0 ms))
      (m0 :: ms).length (m0 :: ms) (listShuffle members s).2 (Nat.le_refl _)
  have hgl : (m0 :: ms).getLast? = some ((m0 :: ms).getLast (List.cons_ne_nil m0 ms)) :=
    List.getLast?_eq_getLast (m0 :: ms) (List.cons_ne_nil m0 ms)
  refine ⟨m0 :: ms, (listShuffle members s).2,
    (m0 :: ms).getLast (List.cons_ne_nil m0 ms), pairs, s', ?_, ?_, hgl, ?_, ?_, ?_, ?_,
    ?_, ?_, ?_⟩
  · rw [← hsh]
  · rw [← hsh]; exact hperm
  · simp only [generate_pairs, hsh]
    exact hloop
  · have hl2 : (m0 :: ms).length = members.length := by
      rw [← hsh]
      exact hlen
    rw [hplen, hl2]
  · intro hpar
    exact heven (by rw [← hsh, hlen]; exact hpar)
  · intro hpar
    exact hodd (by rw [← hsh, hlen]; exact hpar)
  · intro h2
    rw [hhead (by rw [← hsh, hlen]; exact h2), hgl]
  · intro h1
    obtain ⟨x, hx, hp⟩ := hone (by rw [← hsh, hlen]; exact h1)
    have hmx : members = [x] := by
      have hp2 : members.Perm [x] := by
        have hq := hperm.symm
        rw [hsh, hx] at hq
        exact hq
      exact List.perm_singleton.mp hp2
    refine ⟨x, hmx, ?_⟩
    have hfm : (m0 :: ms).getLast (List.cons_ne_nil m0 ms) = x := by
      injection hx with hx1 hx2
      subst hx2
      subst hx1
      rfl
    rw [hp, hfm]
  · intro hpar
    exact hlast (by rw [← hsh, hlen]; exact hpar)

theorem randSample_reach (l : List α) (x : α) (hx : x ∈ l) :
    ∃ s : RandState, (randSample l s).map (fun r => r.1) = some x := by
  cases l with
  | nil => cases hx
  | cons a as =>
    obtain ⟨⟨i, hi⟩, hget⟩ := List.mem_iff_get.mp hx
    refine ⟨⟨fun _ => i, 0⟩, ?_⟩
    have hmod : i % (as.length + 1) = i := Nat.mod_eq_of_lt (by simpa using hi)
    have h2 : (a :: as).get ⟨i % (as.length + 1),
        Nat.mod_lt _ (Nat.succ_pos as.length)⟩ = x := by
      rw [← hget]
      congr 1
      exact Fin.ext hmod
    simp only [randSample, draw, Option.map_some']
    rw [h2]

theorem mem_of_getLast?_eq {l : List α} {a : α} (h : l.getLast? = some a) : a ∈ l := by
  cases l with
  | nil => simp at h
  | cons x xs =>
    have hgl := List.getLast?_eq_getLast (x :: xs) (List.cons_ne_nil x xs)
    rw [hgl, Option.some.injEq] at h
    exact h ▸ List.getLast_mem (List.cons_ne_nil x xs)

/-- C1: in `pair_excluding_historic_matches`, when the history dictionary
is present the partner is sampled from the remaining members minus
`member1`'s historical-match set when that pool is non-empty, and from all
remaining members when it is empty; with no dictionary the partner is
sampled from all remaining members.  Every element of the sampled pool is
a possible outcome of the oracle-driven uniform sample, and
`generate_pairs` always succeeds (returns a batch) for every input,
including histories covering every possible pair. -/
theorem claim_C1_candidate_pool (f : α → List α) (member1 : α) (members : List α)
    (s : RandState) :
    (members.filter (fun m => !((f member1).contains m)) ≠ [] →
      (pair_excluding_historic_matches member1 members (some f) s).map (fun r => r.1) =
        (randSample (members.filter (fun m => !((f member1).contains m))) s).map
          (fun r => (member1, r.1))) ∧
    (members.filter (fun m => !((f member1).contains m)) = [] →
      (pair_excluding_historic_matches member1 members (some f) s).map (fun r => r.1) =
        (randSample members s).map (fun r => (member1, r.1))) ∧
    ((pair_excluding_historic_matches member1 members none s).map (fun r => r.1) =
      (randSample members s).map (fun r => (member1, r.1))) ∧
    (∀ (l : List α) (x : α), x ∈ l →
      ∃ s0 : RandState, (randSample l s0).map (fun r => r.1) = some x) ∧
    (∀ (pp : Option (List (List (α × α)))) (s1 : RandState),
      ∃ pairs s', generate_pairs members pp s1 = some (pairs, [], s')) := by
  refine ⟨?_, ?_, ?_, ?_, ?_⟩
  · intro hc
    obtain ⟨x, s', hx, _⟩ := randSample_ne_nil hc s
    simp only [pair_excluding_historic_matches]
    rw [hx]
    rfl
  · intro hc
    simp only [pair_excluding_historic_matches]
    rw [hc, randSample_nil]
    cases hr : randSample members s with
    | none => rfl
    | some r => rfl
  · simp only [pair_excluding_historic_matches]
    cases hr : randSample members s with
    | none => rfl
    | some r => rfl
  · exact fun l x hx => randSample_reach l x hx
  · intro pp s1
    by_cases h : members = []
    · subst h
      exact ⟨[], s1, rfl⟩
    · obtain ⟨_, _, _, pairs, s', _, _, _, hgen, _⟩ := generate_pairs_main members pp s1 h
      exact ⟨pairs, s', hgen⟩

/-- Witness for C1 at concrete inputs: member `1` has history `[2]`, so
the sampled pool is the filtered candidate list; and `generate_pairs`
succeeds on two members whose pair is already fully covered by history. -/
theorem claim_C1_witness :
    ((pair_excluding_historic_matches 1 [2, 3] (some (fun _ => [2]))
        (⟨fun _ => 0, 0⟩ : RandState)).map (fun r => r.1) =
      (randSample ([2, 3].filter (fun m => !(([2] : List Nat).contains m)))
        (⟨fun _ => 0, 0⟩ : RandState)).map (fun r => (1, r.1))) ∧
    (∃ pairs s', generate_pairs [2, 3] (some [[(2, 3)]]) (⟨fun _ => 0, 0⟩ : RandState) =
      some (pairs, [], s')) := by
  constructor
  · exact (claim_C1_candidate_pool (fun _ => ([2] : List Nat)) 1 [2, 3]
      ⟨fun _ => 0, 0⟩).1 (by decide)
  · exact (claim_C1_candidate_pool (fun _ => ([2] : List Nat)) 1 [2, 3]
      ⟨fun _ => 0, 0⟩).2.2.2.2 (some [[(2, 3)]]) ⟨fun _ => 0, 0⟩

/-- C2: for every non-empty member list, the batch returned by
`generate_pairs` covers every input member at least once — the set of
member identifiers appearing in the output pairs equals the set of input
members. -/
theorem claim_C2_covers (members : List α) (pp : Option (List (List (α × α))))
    (s : RandState) (h : members ≠ []) :
    ∃ pairs mfin s', generate_pairs members pp s = some (pairs, mfin, s') ∧
      (∀ x, x ∈ pairMembers pairs ↔ x ∈ members) ∧
      (pairMembers pairs).toFinset = members.toFinset := by
  obtain ⟨sh, s1, fm, pairs, s', hsh, hperm, hgl, hgen, _, heven, hodd, _, _, _⟩ :=
    generate_pairs_main members pp s h
  have hfm : fm ∈ sh := mem_of_getLast?_eq hgl
  have hmem : ∀ x, x ∈ pairMembers pairs ↔ x ∈ members := by
    intro x
    rcases Nat.mod_two_eq_zero_or_one members.length with hp | hp
    · exact ((heven hp).mem_iff).trans hperm.mem_iff
    · rw [(hodd hp).mem_iff, List.mem_cons, ← hperm.mem_iff]
      constructor
      · rintro (rfl | hx)
        · exact hfm
        · exact hx
      · intro hx
        exact Or.inr hx
  refine ⟨pairs, [], s', hgen, hmem, ?_⟩
  ext x
  simp [List.mem_toFinset, hmem x]

/-- Witness for C2 at the concrete member list `[1, 2, 3]`. -/
theorem claim_C2_witness :
    ∃ pairs mfin s', generate_pairs [1, 2, 3]
        (none : Option (List (List (Nat × Nat)))) (⟨fun _ => 0, 0⟩ : RandState) =
        some (pairs, mfin, s') ∧
      (∀ x, x ∈ pairMembers pairs ↔ x ∈ [1, 2, 3]) ∧
      (pairMembers pairs).toFinset = ([1, 2, 3] : List Nat).toFinset :=
  claim_C2_covers [1, 2, 3] none ⟨fun _ => 0, 0⟩ (by decide)

/-- C3: for every non-empty member list of length `n`, `generate_pairs`
returns exactly `⌈n/2⌉` pairs (in `Nat`, `(n + 1) / 2`). -/
theorem claim_C3_pair_count (members : List α) (pp : Option (List (List (α × α))))
    (s : RandState) (h : members ≠ []) :
    ∃ pairs mfin s', generate_pairs members pp s = some (pairs, mfin, s') ∧
      pairs.length = (members.length + 1) / 2 := by
  obtain ⟨_, _, _, pairs, s', _, _, _, hgen, hlen, _⟩ :=
    generate_pairs_main members pp s h
  exact ⟨pairs, [], s', hgen, hlen⟩

/-- Witness for C3 at the concrete member list `[1, 2, 3, 4, 5]`. -/
theorem claim_C3_witness :
    ∃ pairs mfin s', generate_pairs [1, 2, 3, 4, 5]
        (none : Option (List (List (Nat × Nat)))) (⟨fun _ => 0, 0⟩ : RandState) =
        some (pairs, mfin, s') ∧
      pairs.length = (([1, 2, 3, 4, 5] : List Nat).length + 1) / 2 :=
  claim_C3_pair_count [1, 2, 3, 4, 5] none ⟨fun _ => 0, 0⟩ (by decide)

/-- C4: in the batch returned by `generate_pairs` on a duplicate-free
member list: exactly one member appears twice when the length is odd and
greater than 1; no member appears twice when the length is even; and a
single member is paired with itself. -/
theorem claim_C4_multiplicity (members : List α) (pp : Option (List (List (α × α))))
    (s : RandState) (hnd : members.Nodup) (h : members ≠ []) :
    ∃ pairs mfin s', generate_pairs members pp s = some (pairs, mfin, s') ∧
      (members.length % 2 = 1 → 1 < members.length →
        ∃ m, m ∈ members ∧ (pairMembers pairs).count m = 2 ∧
          ∀ m', m' ∈ members → m' ≠ m → (pairMembers pairs).count m' = 1) ∧
      (members.length % 2 = 0 →
        ∀ m, m ∈ members → (pairMembers pairs).count m = 1) ∧
      (members.length = 1 → ∃ x, members = [x] ∧ pairs = [(x, x)]) := by
  obtain ⟨sh, s1, fm, pairs, s', hsh, hperm, hgl, hgen, _, heven, hodd, _, hone, _⟩ :=
    generate_pairs_main members pp s h
  have hshnd : sh.Nodup := hperm.nodup_iff.mpr hnd
  have hfm : fm ∈ sh := mem_of_getLast?_eq hgl
  refine ⟨pairs, [], s', hgen, ?_, ?_, hone⟩
  · intro hpar _
    refine ⟨fm, hperm.mem_iff.mp hfm, ?_, ?_⟩
    · rw [(hodd hpar).count_eq fm, List.count_cons_self,
        List.count_eq_one_of_mem hshnd hfm]
    · intro m' hm' hne
      rw [(hodd hpar).count_eq m', List.count_cons_of_ne hne,
        List.count_eq_one_of_mem hshnd (hperm.mem_iff.mpr hm')]
  · intro hpar m hm
    rw [(heven hpar).count_eq m, List.count_eq_one_of_mem hshnd (hperm.mem_iff.mpr hm)]

/-- Witness for C4 at the odd-length duplicate-free list `[1, 2, 3]`. -/
theorem claim_C4_witness :
    ∃ pairs mfin s', generate_pairs [1, 2, 3]
        (none : Option (List (List (Nat × Nat)))) (⟨fun _ => 1, 0⟩ : RandState) =
        some (pairs, mfin, s') ∧
      (([1, 2, 3] : List Nat).length % 2 = 1 → 1 < ([1, 2, 3] : List Nat).length →
        ∃ m, m ∈ [1, 2, 3] ∧ (pairMembers pairs).count m = 2 ∧
          ∀ m', m' ∈ [1, 2, 3] → m' ≠ m → (pairMembers pairs).count m' = 1) ∧
      (([1, 2, 3] : List Nat).length % 2 = 0 →
        ∀ m, m ∈ [1, 2, 3] → (pairMembers pairs).count m = 1) ∧
      (([1, 2, 3] : List Nat).length = 1 → ∃ x, ([1, 2, 3] : List Nat) = [x] ∧
        pairs = [(x, x)]) :=
  claim_C4_multiplicity [1, 2, 3] none ⟨fun _ => 1, 0⟩ (by decide) (by decide)

/-- C6 counterexample: `generate_pairs` does mutate the caller's members
list — after calling it on `[1, 2]` the caller's list is `[]`, not the
original `[1, 2]`. -/
theorem claim_C6_counterexample :
    (generate_pairs [1, 2] (none : Option (List (List (Nat × Nat))))
        (⟨fun _ => 0, 0⟩ : RandState)).map (fun r => r.2.1) = some [] ∧
    some ([] : List Nat) ≠ some [1, 2] := by
  exact ⟨by decide, by decide⟩

/-- C6 amended: `generate_pairs` performs no I/O and leaves
`previous_pairs` unread-only, but it mutates the caller's members list in
place — the list is shuffled and then consumed, so it is empty when the
call returns (for every input, empty or not). -/
theorem claim_C6_consumes_members (members : List α)
    (pp : Option (List (List (α × α)))) (s : RandState) :
    ∃ pairs s', generate_pairs members pp s = some (pairs, [], s') := by
  by_cases h : members = []
  · subst h
    exact ⟨[], s, rfl⟩
  · obtain ⟨_, _, _, pairs, s', _, _, _, hgen, _⟩ := generate_pairs_main members pp s h
    exact ⟨pairs, s', hgen⟩

/-- C9: when `get_members_list` fails with a `SlackApiError` it returns
`None`, and the pipeline then calls `generate_pairs(None, previous_pairs)`,
which raises `TypeError` in `random.shuffle(None)` — the run crashes
instead of degrading to a normal no-result run (which is what the empty
member list produces, second conjunct). -/
theorem claim_C9_members_failure_raises :
    ∀ (pp : Option (List (List (Nat × Nat)))) (s : RandState),
      generate_pairs_of_members_result none pp s = none ∧
      generate_pairs_of_members_result (some []) pp s = some ([], [], s) :=
  fun _ _ => ⟨rfl, rfl⟩

/-- C10: for an odd-length duplicate-free member list with more than one
member, the member appearing in two pairs is the floating member — the
last element of the post-shuffle list — and it is the first component of
both the first and the last emitted pair. -/
theorem claim_C10_floating (members : List α) (pp : Option (List (List (α × α))))
    (s : RandState) (hnd : members.Nodup) (hpar : members.length % 2 = 1)
    (h1 : 1 < members.length) :
    ∃ pairs mfin s' fm, generate_pairs members pp s = some (pairs, mfin, s') ∧
      (listShuffle members s).1.getLast? = some fm ∧
      (pairMembers pairs).count fm = 2 ∧
      (∀ m, m ∈ members → m ≠ fm → (pairMembers pairs).count m = 1) ∧
      pairs.head?.map Prod.fst = some fm ∧
      pairs.getLast?.map Prod.fst = some fm := by
  have h : members ≠ [] := by
    intro hcon
    rw [hcon] at h1
    simp at h1
  obtain ⟨sh, s1, fm, pairs, s', hsh, hperm, hgl, hgen, _, _, hodd, hhead, _, hlast⟩ :=
    generate_pairs_main members pp s h
  have hshnd : sh.Nodup := hperm.nodup_iff.mpr hnd
  have hfm : fm ∈ sh := mem_of_getLast?_eq hgl
  refine ⟨pairs, [], s', fm, hgen, ?_, ?_, ?_, hhead (by omega), hlast hpar⟩
  · rw [hsh]
    exact hgl
  · rw [(hodd hpar).count_eq fm, List.count_cons_self,
      List.count_eq_one_of_mem hshnd hfm]
  · intro m hm hne
    rw [(hodd hpar).count_eq m, List.count_cons_of_ne hne,
      List.count_eq_one_of_mem hshnd (hperm.mem_iff.mpr hm)]

/-- Witness for C10 at the concrete member list `[1, 2, 3]`. -/
theorem claim_C10_witness :
    ∃ pairs mfin s' fm, generate_pairs [1, 2, 3]
        (none : Option (List (List (Nat × Nat)))) (⟨fun _ => 2, 0⟩ : RandState) =
        some (pairs, mfin, s') ∧
      (listShuffle [1, 2, 3] (⟨fun _ => 2, 0⟩ : RandState)).1.getLast? = some fm ∧
      (pairMembers pairs).count fm = 2 ∧
      (∀ m, m ∈ [1, 2, 3] → m ≠ fm → (pairMembers pairs).count m = 1) ∧
      pairs.head?.map Prod.fst = some fm ∧
      pairs.getLast?.map Prod.fst = some fm :=
  claim_C10_floating [1, 2, 3] none ⟨fun _ => 2, 0⟩ (by decide) (by decide) (by decide)

/-! ### Text layer lemmas -/

theorem isPrefixOf_append_self : ∀ (l r : Str), l.isPrefixOf (l ++ r) = true := by
  intro l
  induction l with
  | nil => intro r; simp [List.isPrefixOf]
  | cons c cs ih =>
    intro r
    simp only [List.cons_append, List.isPrefixOf_cons₂_self]
    exact ih r

theorem findSplit_post_lt {c0 : Char} {sr : Str} :
    ∀ {s pre post : Str}, findSplit c0 sr s = some (pre, post) → post.length < s.length := by
  intro s
  induction s with
  | nil => intro pre post h; simp [findSplit] at h
  | cons c rest ih =>
    intro pre post h
    by_cases hp : (c0 :: sr).isPrefixOf (c :: rest)
    · simp only [findSplit, hp, if_true, Option.some.injEq, Prod.mk.injEq] at h
      obtain ⟨rfl, rfl⟩ := h
      calc (rest.drop sr.length).length ≤ rest.length := by
            rw [List.length_drop]; omega
        _ < (c :: rest).length := by simp
    · simp only [findSplit, hp, if_false] at h
      cases hf : findSplit c0 sr rest with
      | none => rw [hf] at h; cases h
      | some p =>
        rw [hf] at h
        obtain ⟨pre0, post0⟩ := p
        simp only [Option.some.injEq, Prod.mk.injEq] at h
        obtain ⟨rfl, rfl⟩ := h
        have := ih hf
        simp only [List.length_cons]
        omega

theorem splitSeqF_congr (c0 : Char) (sr : Str) :
    ∀ (bound : Nat) (s : Str) (f1 f2 : Nat),
      s.length ≤ bound → s.length ≤ f1 → s.length ≤ f2 →
      splitSeqF c0 sr f1 s = splitSeqF c0 sr f2 s := by
  intro bound
  induction bound with
  | zero =>
    intro s f1 f2 hb _ _
    have hs : s = [] := List.length_eq_zero.mp (Nat.le_zero.mp hb)
    subst hs
    have hn : findSplit c0 sr ([] : Str) = none := rfl
    cases f1 <;> cases f2 <;> simp [splitSeqF, hn]
  | succ bound ih =>
    intro s f1 f2 hb h1 h2
    cases hs : s with
    | nil =>
      have hn : findSplit c0 sr ([] : Str) = none := rfl
      cases f1 <;> cases f2 <;> simp [splitSeqF, hn]
    | cons c rest =>
      subst hs
      have hl : 0 < (c :: rest).length := by simp
      cases f1 with
      | zero => omega
      | succ f1 =>
        cases f2 with
        | zero => omega
        | succ f2 =>
          simp only [splitSeqF]
          cases hf : findSplit c0 sr (c :: rest) with
          | none => rfl
          | some p =>
            obtain ⟨pre, post⟩ := p
            have hpl : post.length < (c :: rest).length := findSplit_post_lt hf
            show pre :: splitSeqF c0 sr f1 post = pre :: splitSeqF c0 sr f2 post
            rw [ih post f1 f2 (by omega) (by omega) (by omega)]

theorem splitSeq_eq_of_none {c0 : Char} {sr : Str} {s : Str}
    (h : findSplit c0 sr s = none) : splitSeq c0 sr s = [s] := by
  unfold splitSeq
  cases hl : s.length with
  | zero => rfl
  | succ n => simp [splitSeqF, h]

theorem splitSeq_eq_of_some {c0 : Char} {sr : Str} {s pre post : Str}
    (h : findSplit c0 sr s = some (pre, post)) :
    splitSeq c0 sr s = pre :: splitSeq c0 sr post := by
  have hs : s ≠ [] := by
    intro hcon
    subst hcon
    cases h
  obtain ⟨c, rest, rfl⟩ := List.exists_cons_of_ne_nil hs
  have hpl : post.length < (c :: rest).length := findSplit_post_lt h
  unfold splitSeq
  simp only [List.length_cons, splitSeqF, h]
  rw [splitSeqF_congr c0 sr post.length post rest.length post.length (Nat.le_refl _)
    (by simp only [List.length_cons] at hpl; omega) (Nat.le_refl _)]

theorem findSplit_cons_of {c0 : Char} {sr : Str} {c : Char} {t : Str}
    (h1 : (c0 :: sr).isPrefixOf (c :: t) = false) (h2 : findSplit c0 sr t = none) :
    findSplit c0 sr (c :: t) = none := by
  simp [findSplit, h1, h2]

theorem findSplit_cons_none {c0 : Char} {sr : Str} {c : Char} {t : Str}
    (h : findSplit c0 sr (c :: t) = none) :
    (c0 :: sr).isPrefixOf (c :: t) = false ∧ findSplit c0 sr t = none := by
  by_cases hp : (c0 :: sr).isPrefixOf (c :: t)
  · simp [findSplit, hp] at h
  · refine ⟨Bool.eq_false_iff.mpr hp, ?_⟩
    cases hf : findSplit c0 sr t with
    | none => rfl
    | some p =>
      obtain ⟨pre, post⟩ := p
      simp [findSplit, hp, hf] at h

theorem isPrefixOf_cons_false {c0 x : Char} {sr t : Str} (hx : x ≠ c0) :
    (c0 :: sr).isPrefixOf (x :: t) = false := by
  show ((c0 == x) && sr.isPrefixOf t) = false
  have hb : (c0 == x) = false := beq_eq_false_iff_ne.mpr (Ne.symm hx)
  rw [hb, Bool.false_and]

theorem findSplit_eq_none_of_all_ne {c0 : Char} {sr : Str} :
    ∀ {s : Str}, (∀ c ∈ s, c ≠ c0) → findSplit c0 sr s = none := by
  intro s
  induction s with
  | nil => intro _; rfl
  | cons c rest ih =>
    intro h
    exact findSplit_cons_of (isPrefixOf_cons_false (h c (List.mem_cons_self c rest)))
      (ih (fun x hx => h x (List.mem_cons_of_mem c hx)))

theorem findSplit_cons_step {c0 : Char} {sr : Str} {c : Char} {t pre post : Str}
    (h1 : (c0 :: sr).isPrefixOf (c :: t) = false)
    (h2 : findSplit c0 sr t = some (pre, post)) :
    findSplit c0 sr (c :: t) = some (c :: pre, post) := by
  simp [findSplit, h1, h2]

theorem findSplit_append_of_head_ne {c0 : Char} {sr : Str} :
    ∀ {a : Str} (b : Str), (∀ c ∈ a, c ≠ c0) →
      findSplit c0 sr (a ++ (c0 :: sr) ++ b) = some (a, b) := by
  intro a
  induction a with
  | nil =>
    intro b _
    show findSplit c0 sr (c0 :: (sr ++ b)) = some ([], b)
    have hp : (c0 :: sr).isPrefixOf (c0 :: (sr ++ b)) = true :=
      isPrefixOf_append_self (c0 :: sr) b
    simp [findSplit, hp, List.drop_left]
  | cons x a' ih =>
    intro b h
    have hx : x ≠ c0 := h x (List.mem_cons_self x a')
    have hp : (c0 :: sr).isPrefixOf (x :: (a' ++ (c0 :: sr) ++ b)) = false :=
      isPrefixOf_cons_false hx
    have hrec := ih b (fun c hc => h c (List.mem_cons_of_mem x hc))
    exact findSplit_cons_step hp hrec

theorem findSplit_and_append {b : Str} :
    ∀ {p : Str}, findSplit 'a' ['n', 'd'] p = none →
      findSplit 'a' ['n', 'd'] ((p ++ [' ']) ++ (['a', 'n', 'd'] ++ b)) =
        some (p ++ [' '], b) := by
  intro p
  induction p with
  | nil =>
    intro _
    show findSplit 'a' ['n', 'd'] (' ' :: ('a' :: 'n' :: 'd' :: b)) = some ([' '], b)
    have h2 : findSplit 'a' ['n', 'd'] ('a' :: 'n' :: 'd' :: b) = some ([], b) := by
      have hp : (['a', 'n', 'd'] : Str).isPrefixOf ('a' :: 'n' :: 'd' :: b) = true :=
        isPrefixOf_append_self ['a', 'n', 'd'] b
      simp [findSplit, hp]
    exact findSplit_cons_step (isPrefixOf_cons_false (by decide)) h2
  | cons x p' ih =>
    intro hno
    obtain ⟨hd1, hd2⟩ := findSplit_cons_none hno
    have h2 := ih hd2
    show findSplit 'a' ['n', 'd'] (x :: ((p' ++ [' ']) ++ (['a', 'n', 'd'] ++ b))) =
      some (x :: (p' ++ [' ']), b)
    cases p' with
    | nil =>
      refine findSplit_cons_step ?_ h2
      simp [List.isPrefixOf]
    | cons y t =>
      cases t with
      | nil =>
        refine findSplit_cons_step ?_ h2
        simp [List.isPrefixOf]
      | cons z p3 =>
        refine findSplit_cons_step ?_ h2
        simp only [List.isPrefixOf] at hd1 ⊢
        exact hd1

theorem dropWhile_eq_self_of_not_head {l : Str} (h : ∀ c ∈ l, isWS c = false) :
    l.dropWhile isWS = l := by
  cases l with
  | nil => rfl
  | cons c cs =>
    rw [List.dropWhile_cons, h c (List.mem_cons_self c cs)]
    simp

theorem pyStrip_append_space {p : Str} (hne : p ≠ []) (h : ∀ c ∈ p, isWS c = false) :
    pyStrip (p ++ [' ']) = p := by
  obtain ⟨c, cs, rfl⟩ := List.exists_cons_of_ne_nil hne
  unfold pyStrip
  have h1 : ((c :: cs) ++ [' ']).dropWhile isWS = (c :: cs) ++ [' '] := by
    rw [List.cons_append, List.dropWhile_cons, h c (List.mem_cons_self c cs)]
    simp
  rw [h1]
  have h2 : ((c :: cs) ++ [' ']).reverse = ' ' :: (c :: cs).reverse := by
    rw [List.reverse_append]
    rfl
  rw [h2, List.dropWhile_cons]
  have hws : isWS ' ' = true := by decide
  rw [hws]
  simp only [if_true]
  have h3 : (c :: cs).reverse.dropWhile isWS = (c :: cs).reverse :=
    dropWhile_eq_self_of_not_head (fun x hx => h x (List.mem_reverse.mp hx))
  rw [h3, List.reverse_reverse]

theorem pyStrip_cons_space {p : Str} (h : ∀ c ∈ p, isWS c = false) :
    pyStrip (' ' :: p) = p := by
  unfold pyStrip
  rw [List.dropWhile_cons]
  have hws : isWS ' ' = true := by decide
  rw [hws]
  simp only [if_true]
  rw [dropWhile_eq_self_of_not_head h,
    dropWhile_eq_self_of_not_head (fun x hx => h x (List.mem_reverse.mp hx)),
    List.reverse_reverse]

/-- The ten decimal digit characters. -/
theorem digitCh_mem (d : Nat) :
    digitCh d ∈ (['0', '1', '2', '3', '4', '5', '6', '7', '8', '9'] : Str) := by
  unfold digitCh
  by_cases hd : d < 10
  · interval_cases d <;> decide
  · rw [List.getD_eq_default]
    · decide
    · simpa using Nat.le_of_not_lt hd

theorem natCharsAux_chars (P : Char → Prop) (hP : ∀ d, P (digitCh d)) :
    ∀ (fuel n : Nat) (acc : Str), (∀ c ∈ acc, P c) →
      ∀ c ∈ natCharsAux fuel n acc, P c := by
  intro fuel
  induction fuel with
  | zero => intro n acc hacc c hc; exact hacc c hc
  | succ fuel ih =>
    intro n acc hacc c hc
    simp only [natCharsAux] at hc
    by_cases hq : n / 10 = 0
    · rw [if_pos hq] at hc
      rcases List.mem_cons.mp hc with rfl | hc2
      · exact hP _
      · exact hacc c hc2
    · rw [if_neg hq] at hc
      refine ih (n / 10) (digitCh (n % 10) :: acc) ?_ c hc
      intro x hx
      rcases List.mem_cons.mp hx with rfl | hx2
      · exact hP _
      · exact hacc x hx2

theorem natChars_chars (n : Nat) :
    ∀ c ∈ natChars n, c ≠ '.' ∧ c ≠ '\n' ∧ isWS c = false := by
  intro c hc
  refine natCharsAux_chars (fun c => c ≠ '.' ∧ c ≠ '\n' ∧ isWS c = false) ?_
    (n + 1) n [] (by simp) c hc
  intro d
  have hmem := digitCh_mem d
  have hgood : ∀ x ∈ (['0', '1', '2', '3', '4', '5', '6', '7', '8', '9'] : Str),
      x ≠ '.' ∧ x ≠ '\n' ∧ isWS x = false := by decide
  exact hgood _ hmem

/-- Splitting on `'\n'` a block of newline-terminated bodies followed by a
newline-free footer recovers exactly the bodies and the footer. -/
theorem splitSeq_lines :
    ∀ (bodies : List Str) (footer : Str),
      (∀ l ∈ bodies, ∀ c ∈ l, c ≠ '\n') → (∀ c ∈ footer, c ≠ '\n') →
      splitSeq '\n' [] ((bodies.map (fun l => l ++ ['\n'])).flatten ++ footer) =
        bodies ++ [footer] := by
  intro bodies
  induction bodies with
  | nil =>
    intro footer _ hf
    simp only [List.map_nil, List.flatten_nil, List.nil_append]
    rw [splitSeq_eq_of_none (findSplit_eq_none_of_all_ne hf)]
  | cons l ls ih =>
    intro footer hb hf
    have hl : ∀ c ∈ l, c ≠ '\n' := hb l (List.mem_cons_self l ls)
    have hstep : findSplit '\n' []
        (l ++ ('\n' :: []) ++ ((ls.map (fun l => l ++ ['\n'])).flatten ++ footer)) =
        some (l, (ls.map (fun l => l ++ ['\n'])).flatten ++ footer) :=
      findSplit_append_of_head_ne _ hl
    have hshape : ((l :: ls).map (fun l => l ++ ['\n'])).flatten ++ footer =
        l ++ ('\n' :: []) ++ ((ls.map (fun l => l ++ ['\n'])).flatten ++ footer) := by
      simp
    rw [hshape, splitSeq_eq_of_some hstep,
      ih footer (fun x hx => hb x (List.mem_cons_of_mem l hx)) hf]
    rfl

theorem goodMember_facts {p : Str} (h : goodMember p = true) :
    p ≠ [] ∧ (∀ c ∈ p, isWS c = false ∧ c ≠ '.' ∧ c ≠ '\n') ∧
      findSplit 'a' ['n', 'd'] p = none := by
  simp only [goodMember, Bool.and_eq_true, List.all_eq_true] at h
  obtain ⟨⟨hne, hall⟩, hand⟩ := h
  refine ⟨?_, ?_, ?_⟩
  · intro hcon
    subst hcon
    simp at hne
  · intro c hc
    have hg := hall c hc
    simp only [goodChar, Bool.and_eq_true, Bool.not_eq_true', bne_iff_ne] at hg
    obtain ⟨hws, hdot⟩ := hg
    refine ⟨hws, hdot, ?_⟩
    intro hcon
    subst hcon
    exact absurd hws (by decide)
  · simp only [hasSub, hasSeq, Bool.not_eq_true'] at hand
    cases hf : findSplit 'a' ['n', 'd'] p with
    | none => rfl
    | some q =>
      rw [hf] at hand
      simp at hand

theorem parseLine_pairBody (i : Nat) (p : Str × Str)
    (h1 : goodMember p.1 = true) (h2 : goodMember p.2 = true) :
    parseLine (pairBody i p) = some p := by
  obtain ⟨hne1, hch1, hand1⟩ := goodMember_facts h1
  obtain ⟨hne2, hch2, hand2⟩ := goodMember_facts h2
  have hand_lit : (" and ").toList = [' ', 'a', 'n', 'd', ' '] := rfl
  have hbody : pairBody i p =
      ([' '] ++ natChars (i + 1)) ++ ('.' :: [' ']) ++
        (p.1 ++ (" and ").toList ++ p.2) := by
    simp [pairBody, List.append_assoc]
  have hdot_a : ∀ c ∈ [' '] ++ natChars (i + 1), c ≠ '.' := by
    intro c hc
    rcases List.mem_append.mp hc with hc1 | hc2
    · have hsp : c = ' ' := by simpa using hc1
      subst hsp
      decide
    · exact (natChars_chars (i + 1) c hc2).1
  have hfs1 : findSplit '.' [' ']
      (([' '] ++ natChars (i + 1)) ++ ('.' :: [' ']) ++
        (p.1 ++ (" and ").toList ++ p.2)) =
      some ([' '] ++ natChars (i + 1), p.1 ++ (" and ").toList ++ p.2) :=
    findSplit_append_of_head_ne _ hdot_a
  have hdot_seg : ∀ c ∈ p.1 ++ (" and ").toList ++ p.2, c ≠ '.' := by
    intro c hc
    rcases List.mem_append.mp hc with hc1 | hc2
    · rcases List.mem_append.mp hc1 with hc3 | hc4
      · exact (hch1 c hc3).2.1
      · rw [hand_lit] at hc4
        have hlit : ∀ x ∈ ([' ', 'a', 'n', 'd', ' '] : Str), x ≠ '.' := by decide
        exact hlit c hc4
    · exact (hch2 c hc2).2.1
  have hfs2 : findSplit '.' [' '] (p.1 ++ (" and ").toList ++ p.2) = none :=
    findSplit_eq_none_of_all_ne hdot_seg
  have hsplit1 : splitSeq '.' [' '] (pairBody i p) =
      [[' '] ++ natChars (i + 1), p.1 ++ (" and ").toList ++ p.2] := by
    rw [hbody, splitSeq_eq_of_some hfs1, splitSeq_eq_of_none hfs2]
  have hseg_shape : p.1 ++ (" and ").toList ++ p.2 =
      (p.1 ++ [' ']) ++ (['a', 'n', 'd'] ++ (' ' :: p.2)) := by
    rw [hand_lit]
    simp [List.append_assoc]
  have hfs3 : findSplit 'a' ['n', 'd'] (p.1 ++ (" and ").toList ++ p.2) =
      some (p.1 ++ [' '], ' ' :: p.2) := by
    rw [hseg_shape]
    exact findSplit_and_append hand1
  have hfs4 : findSplit 'a' ['n', 'd'] (' ' :: p.2) = none :=
    findSplit_cons_of (isPrefixOf_cons_false (by decide)) hand2
  have hsplit2 : splitSeq 'a' ['n', 'd'] (p.1 ++ (" and ").toList ++ p.2) =
      [p.1 ++ [' '], ' ' :: p.2] := by
    rw [splitSeq_eq_of_some hfs3, splitSeq_eq_of_none hfs4]
  have hstrip1 : pyStrip (p.1 ++ [' ']) = p.1 :=
    pyStrip_append_space hne1 (fun c hc => (hch1 c hc).1)
  have hstrip2 : pyStrip (' ' :: p.2) = p.2 :=
    pyStrip_cons_space (fun c hc => (hch2 c hc).1)
  simp only [hand_lit, List.append_assoc, List.cons_append, List.nil_append] at hsplit1 hsplit2
  simp [parseLine, hsplit1, hsplit2, hstrip1, hstrip2]

theorem pairBody_no_newline {i : Nat} {p : Str × Str} (h1 : goodMember p.1 = true)
    (h2 : goodMember p.2 = true) : ∀ c ∈ pairBody i p, c ≠ '\n' := by
  obtain ⟨_, hch1, _⟩ := goodMember_facts h1
  obtain ⟨_, hch2, _⟩ := goodMember_facts h2
  intro c hc
  unfold pairBody at hc
  rcases List.mem_append.mp hc with h5 | h6
  · rcases List.mem_append.mp h5 with h4 | h5b
    · rcases List.mem_append.mp h4 with h3 | h4b
      · rcases List.mem_append.mp h3 with h2b | h3b
        · rcases List.mem_append.mp h2b with h1b | h2c
          · have hsp : c = ' ' := by simpa using h1b
            subst hsp
            decide
          · exact (natChars_chars (i + 1) c h2c).2.1
        · have hlit : ∀ x ∈ (['.', ' '] : Str), x ≠ '\n' := by decide
          exact hlit c h3b
      · exact (hch1 c h4b).2.2
    · have hlit : ∀ x ∈ ((" and ").toList : Str), x ≠ '\n' := by decide
      exact hlit c h5b
  · exact (hch2 c h6).2.2

theorem traverseOpt_eq_some {β γ : Type} (f : β → Option γ) (g : β → γ) :
    ∀ (l : List β), (∀ x ∈ l, f x = some (g x)) → traverseOpt f l = some (l.map g) := by
  intro l
  induction l with
  | nil => intro _; rfl
  | cons y ys ih =>
    intro h
    have hy : f y = some (g y) := h y (List.mem_cons_self y ys)
    have hrec : traverseOpt f ys = some (ys.map g) :=
      ih (fun x hx => h x (List.mem_cons_of_mem y hx))
    simp [traverseOpt, hy, hrec]

theorem traverseOpt_eq_none {β γ : Type} (f : β → Option γ) :
    ∀ (l : List β) (x : β), x ∈ l → f x = none → traverseOpt f l = none := by
  intro l
  induction l with
  | nil => intro x hx _; cases hx
  | cons y ys ih =>
    intro x hx hfx
    rcases List.mem_cons.mp hx with rfl | hx2
    · cases h2 : traverseOpt f ys <;> simp [traverseOpt, hfx, h2]
    · have hrec := ih x hx2 hfx
      cases hy : f y <;> simp [traverseOpt, hy, hrec]

theorem mem_enumFrom_snd {β : Type} :
    ∀ (l : List β) (n i : Nat) (x : β), (i, x) ∈ l.enumFrom n → x ∈ l := by
  intro l
  induction l with
  | nil => intro n i x hx; cases hx
  | cons a t ih =>
    intro n i x hx
    rcases List.mem_cons.mp hx with heq | hx2
    · have hxa : x = a := congrArg Prod.snd heq
      rw [hxa]
      exact List.mem_cons_self a t
    · exact List.mem_cons_of_mem a (ih (n + 1) i x hx2)

theorem mem_enum_snd {β : Type} (l : List β) (i : Nat) (x : β)
    (h : (i, x) ∈ l.enum) : x ∈ l :=
  mem_enumFrom_snd l 0 i x h

theorem traverseOpt_map {β γ δ : Type} (f : γ → Option δ) (g : β → γ) :
    ∀ l : List β, traverseOpt f (l.map g) = traverseOpt (fun x => f (g x)) l := by
  intro l
  induction l with
  | nil => rfl
  | cons y ys ih => simp only [List.map_cons, traverseOpt, ih]

theorem get_previous_pairs_singleton {t : Str} {testing : Bool}
    (hf : messageFilter testing t = true) :
    get_previous_pairs [t] testing = (traverseOpt parseMessage [t]).map some := by
  simp [get_previous_pairs, List.filter_cons, hf]

theorem traverseOpt_parseLine_enum :
    ∀ (pairs : List (Str × Str)),
      (∀ p ∈ pairs, goodMember p.1 = true ∧ goodMember p.2 = true) →
      ∀ n : Nat, traverseOpt parseLine
        ((pairs.enumFrom n).map (fun ip => pairBody ip.1 ip.2)) = some pairs := by
  intro pairs
  induction pairs with
  | nil => intro _ n; rfl
  | cons p ps ih =>
    intro hg n
    have hp := hg p (List.mem_cons_self p ps)
    have hline : parseLine (pairBody n p) = some p := parseLine_pairBody n p hp.1 hp.2
    have hrec := ih (fun q hq => hg q (List.mem_cons_of_mem p hq)) (n + 1)
    show traverseOpt parseLine
      (pairBody n p :: (ps.enumFrom (n + 1)).map (fun ip => pairBody ip.1 ip.2)) =
      some (p :: ps)
    simp only [traverseOpt, hline, hrec]

/-- C5 amended: for every non-empty batch whose member strings are
well-formed (non-empty, no whitespace, no `'.'`, no `'and'` substring)
and whose formatted message passes the extraction filter of the chosen
mode, formatting with `format_message_from_list_of_pairs` and then
running the extractor's filter-and-parse on that single message yields
exactly that batch. -/
theorem claim_C5_round_trip (pairs : List (Str × Str)) (hne : pairs ≠ [])
    (hgood : ∀ p ∈ pairs, goodPair p = true) (testing : Bool) (msg : Str)
    (hmsg : format_message_from_list_of_pairs pairs = some msg)
    (hfilter : messageFilter testing msg = true) :
    get_previous_pairs [msg] testing = some (some [pairs]) := by
  have hgood1 : ∀ p ∈ pairs, goodMember p.1 = true ∧ goodMember p.2 = true := by
    intro p hp
    have hg := hgood p hp
    simpa [goodPair, Bool.and_eq_true] using hg
  have hlen0 : pairs.length ≠ 0 := by
    intro hcon
    exact hne (List.length_eq_zero.mp hcon)
  unfold format_message_from_list_of_pairs at hmsg
  rw [if_pos hlen0] at hmsg
  have hM : msg = (MAGICAL_TEXT ++ [':', '\n'])
      ++ (pairs.enum.map (fun ip => pairLine ip.1 ip.2)).flatten ++ FOOTER :=
    (Option.some.inj hmsg).symm
  have hmap : pairs.enum.map (fun ip => pairLine ip.1 ip.2) =
      (pairs.enum.map (fun ip => pairBody ip.1 ip.2)).map (fun l => l ++ ['\n']) := by
    rw [List.map_map]
    rfl
  have hbodies_nl : ∀ l ∈ pairs.enum.map (fun ip => pairBody ip.1 ip.2),
      ∀ c ∈ l, c ≠ '\n' := by
    intro l hl
    obtain ⟨ip, hip, rfl⟩ := List.mem_map.mp hl
    obtain ⟨i, pp⟩ := ip
    obtain ⟨hg1, hg2⟩ := hgood1 pp (mem_enum_snd pairs i pp hip)
    exact pairBody_no_newline hg1 hg2
  have hhdr : ∀ c ∈ MAGICAL_TEXT ++ [':'], c ≠ '\n' := by decide
  have hfoot : ∀ c ∈ FOOTER, c ≠ '\n' := by decide
  have hshape : msg = (MAGICAL_TEXT ++ [':']) ++ ('\n' :: []) ++
      (((pairs.enum.map (fun ip => pairBody ip.1 ip.2)).map
          (fun l => l ++ ['\n'])).flatten ++ FOOTER) := by
    rw [hM, hmap]
    simp [List.append_assoc]
  have hlines : splitSeq '\n' [] msg = (MAGICAL_TEXT ++ [':']) ::
      ((pairs.enum.map (fun ip => pairBody ip.1 ip.2)) ++ [FOOTER]) := by
    rw [hshape, splitSeq_eq_of_some (findSplit_append_of_head_ne _ hhdr),
      splitSeq_lines _ _ hbodies_nl hfoot]
  have hretained : ((splitSeq '\n' [] msg).drop 1).dropLast =
      pairs.enum.map (fun ip => pairBody ip.1 ip.2) := by
    rw [hlines]
    simp [List.dropLast_concat]
  have hparse : parseMessage msg = some pairs := by
    unfold parseMessage
    rw [hretained]
    exact traverseOpt_parseLine_enum pairs hgood1 0
  have htrav : traverseOpt parseMessage [msg] = some [pairs] := by
    simp only [traverseOpt, hparse]
  rw [get_previous_pairs_singleton hfilter, htrav]
  rfl

/-- C5 counterexample: the round-trip fails for batches as such — a batch
whose members carry no mention marker is filtered out entirely (the
extractor returns Python `None` in both modes), and a member containing
the substring `'and'` (here `'@andy'`) is garbled by the `'and'`-split
into the pair `('@', 'y')`. -/
theorem claim_C5_counterexample :
    ((format_message_from_list_of_pairs [(['A'], ['B'])]).map
        (fun msg => (get_previous_pairs [msg] false, get_previous_pairs [msg] true)) =
      some (some none, some none)) ∧
    ((format_message_from_list_of_pairs [(("@andy").toList, ("@bob").toList)]).map
        (fun msg => get_previous_pairs [msg] true) =
      some (some (some [[(['@'], ['y'])]]))) ∧
    (some (some [[(['@'], ['y'])]]) ≠
      some (some [[((("@andy").toList), (("@bob").toList))]])) := by
  exact ⟨by decide, by decide, by decide⟩

/-- Witness for C5 at a concrete production-mode batch. -/
theorem claim_C5_witness :
    get_previous_pairs
        [(format_message_from_list_of_pairs
            [(("<@U1>").toList, ("<@U2>").toList)]).getD []] false =
      some (some [[(("<@U1>").toList, ("<@U2>").toList)]]) :=
  claim_C5_round_trip [(("<@U1>").toList, ("<@U2>").toList)] (by decide) (by decide)
    false _ (by decide) (by decide)

/-- C7: every "no data" condition is an empty or absent result handled by
normal control flow: an empty member list yields an empty batch; no
matching messages makes the extractor return Python `None` (no error); the
generator behaves identically on an absent history and an empty history;
and an empty batch makes the formatter return `None` (nothing posted). -/
theorem claim_C7_no_data :
    (∀ (pp : Option (List (List (α × α)))) (s : RandState),
        generate_pairs ([] : List α) pp s = some ([], [], s)) ∧
    (∀ (texts : List Str) (testing : Bool),
        texts.filter (messageFilter testing) = [] →
        get_previous_pairs texts testing = some none) ∧
    (∀ (members : List α) (s : RandState),
        generate_pairs members none s = generate_pairs members (some []) s) ∧
    (format_message_from_list_of_pairs [] = none) := by
  refine ⟨?_, ?_, ?_, rfl⟩
  · intro pp s
    rfl
  · intro texts testing h
    simp [get_previous_pairs, h]
  · intro members s
    simp only [generate_pairs]
    cases hsh : (listShuffle members s).1 with
    | nil => rfl
    | cons m0 ms =>
      have hm : buildMPM (m0 :: ms) (none : Option (List (List (α × α)))) =
          buildMPM (m0 :: ms) (some []) := by
        simp [buildMPM]
      show pairLoop (buildMPM (m0 :: ms) none)
          ((m0 :: ms).getLast (List.cons_ne_nil m0 ms)) (m0 :: ms).length (m0 :: ms)
          (listShuffle members s).2 =
        pairLoop (buildMPM (m0 :: ms) (some []))
          ((m0 :: ms).getLast (List.cons_ne_nil m0 ms)) (m0 :: ms).length (m0 :: ms)
          (listShuffle members s).2
      rw [hm]

/-- Witness for C7: a window with one non-matching message yields the
absent history result. -/
theorem claim_C7_witness :
    get_previous_pairs [("hello").toList] true = some none :=
  (claim_C7_no_data (α := Nat)).2.1 [("hello").toList] true (by decide)

/-- C8 amended: if a message passes the filter and a retained interior
line fails the code's parse — it contains no `'. '` occurrence, or the
segment after the first `'. '` contains no `'and'` — the whole extraction
raises (returns the exceptional result) instead of skipping the line. -/
theorem claim_C8_raise_on_parse_failure (t : Str) (testing : Bool)
    (hf : messageFilter testing t = true) (e : Str)
    (he : e ∈ ((splitSeq '\n' [] t).drop 1).dropLast) (hp : parseLine e = none) :
    get_previous_pairs [t] testing = none := by
  have hm : parseMessage t = none := by
    unfold parseMessage
    exact traverseOpt_eq_none parseLine _ e he hp
  rw [get_previous_pairs_singleton hf]
  have htrav : traverseOpt parseMessage [t] = none := by
    simp [traverseOpt, hm]
  rw [htrav]
  rfl

/-- C8 counterexample: a filter-passing message whose single retained line
`"x. @y and @z"` does not match the `<index>. <member1> and <member2>`
pattern (its index is not a number) is nevertheless parsed without any
error: extraction returns the batch `[('@y', '@z')]` instead of raising. -/
theorem claim_C8_counterexample :
    messageFilter true
        (("This weeks random coffees are:\nx. @y and @z\nfooter").toList) = true ∧
    ((splitSeq '\n' []
        (("This weeks random coffees are:\nx. @y and @z\nfooter").toList)).drop
          1).dropLast = [("x. @y and @z").toList] ∧
    linePat (("x. @y and @z").toList) = false ∧
    get_previous_pairs
        [("This weeks random coffees are:\nx. @y and @z\nfooter").toList] true =
      some (some [[(("@y").toList, ("@z").toList)]]) := by
  exact ⟨by decide, by decide, by decide, by decide⟩

/-- Witness for C8: a message whose retained line has no `'. '` at all
makes the extraction raise. -/
theorem claim_C8_witness :
    get_previous_pairs
        [("This weeks random coffees are:\n@garbage\nfoot").toList] true = none :=
  claim_C8_raise_on_parse_failure _ true (by decide) (("@garbage").toList)
    (by decide) (by decide)
